import Mathlib

/-!
Shallow embedding of the feed scheduling core of `src/control_UI.py`
(class `RobotBackend`, enum `WellState`, and the snapshot-capturing UI
classes `LarvaWell` / `LarvaPlate`), together with theorems settling the
spec claims about it.

Modelling conventions:
* `QDateTime` values are modelled as `Nat` timestamps; the only operations
  the scheduling core performs on them are comparison (`now >= task['time']`)
  and sort-key extraction, both order-theoretic.
* Python `str(uuid.uuid4())` is modelled as a fresh-identifier generator:
  the backend carries a counter and each `schedule_feed` call returns the
  current counter value and increments it.  This realises the claims'
  stated modelling assumption that uuid4 yields pairwise-fresh identifiers,
  and it makes identifier order coincide with schedule-call order.
* `print` calls are not modelled; the observable behaviour of a tick is
  recorded as an explicit event trace (`TickEv`): invocation of
  `execute_robot`, removal from `scheduled_feeds`, and the
  `feed_triggered.emit` signal, in the order the Python code performs them.
-/

/-- `class WellState(Enum)` with members `DISABLED = 0`, `MANUAL = 1`,
`CALCULATED = 2` (control_UI.py lines 96-102). -/
inductive WellState where
  | DISABLED
  | MANUAL
  | CALCULATED
deriving DecidableEq, Repr

/-- The `.value` of each enum member, as assigned in the source. -/
def WellState.value : WellState → Nat
  | .DISABLED => 0
  | .MANUAL => 1
  | .CALCULATED => 2

/-- `WellState(n)` lookup by value: the enum member whose value is `n`
(for `n < 3`; the Python constructor raises outside that range, and the
only call site passes `(value + 1) % 3`, which is always in range). -/
def WellState.ofValue (n : Nat) : WellState :=
  if n = 0 then .DISABLED else if n = 1 then .MANUAL else .CALCULATED

/-- `WellState.next`: `return WellState((self.value + 1) % len(WellState))`
(control_UI.py line 104-105); `len(WellState) = 3`. -/
def WellState.next (s : WellState) : WellState :=
  WellState.ofValue ((s.value + 1) % 3)

/-- One entry of the `wells_data` list built by
`LarvaPlate.get_snapshot_data`: `{'row': ..., 'col': ..., 'state': ...}`. -/
structure WellSnap where
  row : Nat
  col : Nat
  state : WellState
deriving DecidableEq, Repr

/-- The dictionary returned by `LarvaPlate.get_snapshot_data`:
`{'plate_id': ..., 'wells': [...]}` (control_UI.py lines 232-250). -/
structure Snapshot where
  plate_id : Nat
  wells : List WellSnap
deriving DecidableEq, Repr

/-- The `feed_task` dictionary built by `RobotBackend.schedule_feed`
(control_UI.py lines 36-41):
`{'id': task_id, 'time': datetime_obj, 'percent': percentage, 'snapshot': snapshot_data}`. -/
structure FeedTask where
  id : Nat
  time : Nat
  percent : Int
  snapshot : List Snapshot
deriving DecidableEq, Repr

/-- State of `RobotBackend`: the `scheduled_feeds` list plus the fresh-id
counter modelling `uuid.uuid4()` (see the module comment). -/
structure RobotBackend where
  scheduled_feeds : List FeedTask
  nextId : Nat
deriving DecidableEq, Repr

/-- The backend as built by `RobotBackend.__init__`: empty feed list. -/
def RobotBackend.start : RobotBackend := ⟨[], 0⟩

/-- Sort key comparison used by `self.scheduled_feeds.sort(key=lambda x: x['time'])`:
Python's stable `list.sort` by the `'time'` key. -/
def timeLe (a b : FeedTask) : Bool := a.time ≤ b.time

/-- `RobotBackend.schedule_feed(datetime_obj, percentage, snapshot_data)`
(control_UI.py lines 28-53): creates a fresh id, appends the task to
`scheduled_feeds`, stable-sorts the list by time, and returns the id.
There is no validation of any argument.  Python's `list.sort` is a stable
sort, modelled by `List.mergeSort` (Lean's stable merge sort).  The
`display_text` return component is a pure formatting artefact and is not
modelled. -/
def schedule_feed (b : RobotBackend) (datetime_obj : Nat) (percentage : Int)
    (snapshot_data : List Snapshot) : RobotBackend × Nat :=
  let task_id := b.nextId
  let feed_task : FeedTask :=
    { id := task_id, time := datetime_obj, percent := percentage,
      snapshot := snapshot_data }
  let feeds := (b.scheduled_feeds ++ [feed_task]).mergeSort timeLe
  ({ scheduled_feeds := feeds, nextId := b.nextId + 1 }, task_id)

/-- `RobotBackend.delete_feed(task_id)` (control_UI.py lines 55-62):
`self.scheduled_feeds = [f for f in self.scheduled_feeds if f['id'] != task_id]`.
The Python function has no `return` statement, so its value is `None`,
modelled as `none : Option Bool` (the spec claims a boolean is returned). -/
def delete_feed (b : RobotBackend) (task_id : Nat) : RobotBackend × Option Bool :=
  ({ b with scheduled_feeds := b.scheduled_feeds.filter (fun f => f.id ≠ task_id) },
   none)

/-- Observable events of one tick of `check_schedule`, in the order the
source performs them for each due task: the `execute_robot(task)` call,
the `scheduled_feeds.remove(task)` mutation, and the
`feed_triggered.emit(task['id'])` signal. -/
inductive TickEv where
  | exec (task : FeedTask)
  | removed (id : Nat)
  | emit (id : Nat)
deriving DecidableEq, Repr

/-- `RobotBackend.execute_robot(task)` (control_UI.py lines 79-88): the body
only prints the task's fields; it is modelled as the event that records its
invocation. -/
def execute_robot (task : FeedTask) : TickEv := TickEv.exec task

/-- The per-task events of a firing, in source order: execute, remove, emit. -/
def fireEvents (task : FeedTask) : List TickEv :=
  [execute_robot task, TickEv.removed task.id, TickEv.emit task.id]

/-- Body of the `for task in self.scheduled_feeds[:]` loop of
`check_schedule`: if `now >= task['time']`, execute the task, remove it
(Python `list.remove` deletes the first equal element, i.e. `List.erase`)
and emit `feed_triggered`; otherwise do nothing. -/
def tickStep (now : Nat) (acc : List FeedTask × List TickEv) (task : FeedTask) :
    List FeedTask × List TickEv :=
  if now ≥ task.time then (acc.1.erase task, acc.2 ++ fireEvents task) else acc

/-- `RobotBackend.check_schedule` (control_UI.py lines 64-77): iterate over a
copy of `scheduled_feeds` taken at tick start, firing every due task.
Returns the new backend and the event trace of the tick. -/
def check_schedule (now : Nat) (b : RobotBackend) : RobotBackend × List TickEv :=
  let r := b.scheduled_feeds.foldl (tickStep now) (b.scheduled_feeds, [])
  ({ b with scheduled_feeds := r.1 }, r.2)

/-- `LarvaWell`: the per-well mutable state relevant to snapshots
(control_UI.py lines 107-134); widget geometry and colours are presentation
only. -/
structure LarvaWell where
  plate_id : Nat
  row : Nat
  col : Nat
  state : WellState
deriving DecidableEq, Repr

/-- `LarvaWell.set_state(new_state)` (control_UI.py lines 127-134):
`self.state = new_state` (the `update_color` call is presentation only). -/
def set_state (w : LarvaWell) (new_state : WellState) : LarvaWell :=
  { w with state := new_state }

/-- `LarvaPlate`: a plate id together with its wells, in creation order
(the order `findChildren` reports, per the source comment). -/
structure LarvaPlate where
  plate_id : Nat
  wells : List LarvaWell
deriving DecidableEq, Repr

/-- `LarvaPlate.get_snapshot_data` (control_UI.py lines 232-250): builds a
fresh list of fresh `{'row', 'col', 'state'}` dictionaries, one per well,
and wraps them with the plate id.  Enum members are immutable in Python, so
the returned structure shares no mutable data with the live wells; the
value copy performed here is therefore a faithful model. -/
def get_snapshot_data (p : LarvaPlate) : Snapshot :=
  { plate_id := p.plate_id,
    wells := p.wells.map (fun w => { row := w.row, col := w.col, state := w.state }) }

/-- Replace the element at index `i` (no-op when out of range); used to
model attribute mutation of one well inside a plate list. -/
def updateAt {α : Type} (f : α → α) : Nat → List α → List α
  | _, [] => []
  | 0, a :: rest => f a :: rest
  | n + 1, a :: rest => a :: updateAt f n rest

/-- The live UI state the claims quantify over: the plates (as held by
`MainWindow` / `ControlPanel`) together with the backend. -/
structure UISystem where
  plates : List LarvaPlate
  backend : RobotBackend
deriving DecidableEq, Repr

/-- Calling `set_state` on well `w` of plate `p` of the live grid: mutates
only that well's `state` attribute; the backend (and every `FeedTask`
stored in it) is untouched, because `set_state` only assigns
`self.state` (control_UI.py line 133). -/
def sysSetState (sys : UISystem) (p w : Nat) (s : WellState) : UISystem :=
  { sys with plates := updateAt (fun pl =>
      { pl with wells := updateAt (fun well => set_state well s) w pl.wells }) p sys.plates }

/-- A sequence of `set_state` mutations applied to the live grid. -/
def applyMuts (muts : List (Nat × Nat × WellState)) (sys : UISystem) : UISystem :=
  muts.foldl (fun acc m => sysSetState acc m.1 m.2.1 m.2.2) sys

/-- `ControlPanel.add_schedule` (control_UI.py lines 325-345), backend part:
captures `get_snapshot_data` of every plate (in plate order) and passes the
result to `schedule_feed`. -/
def add_schedule (sys : UISystem) (datetime_obj : Nat) (percentage : Int) :
    UISystem × Nat :=
  let full_snapshot := sys.plates.map get_snapshot_data
  let r := schedule_feed sys.backend datetime_obj percentage full_snapshot
  ({ sys with backend := r.1 }, r.2)

/-- External stimuli of one process lifetime: schedule calls, delete calls
and timer ticks, in arbitrary interleaving. -/
inductive Op where
  | sched (time : Nat) (percent : Int) (snapshot : List Snapshot)
  | del (id : Nat)
  | tick (now : Nat)
deriving DecidableEq, Repr

/-- Effect of one stimulus on the backend, with the tick events it emits. -/
def applyOp (b : RobotBackend) : Op → RobotBackend × List TickEv
  | Op.sched t p s => ((schedule_feed b t p s).1, [])
  | Op.del i => ((delete_feed b i).1, [])
  | Op.tick now => check_schedule now b

/-- Run a list of stimuli from a given backend, collecting all events. -/
def runOpsFrom (b : RobotBackend) : List Op → RobotBackend × List TickEv
  | [] => (b, [])
  | op :: rest =>
    let r := applyOp b op
    let r2 := runOpsFrom r.1 rest
    (r2.1, r.2 ++ r2.2)

/-- Run a list of stimuli from the freshly constructed backend. -/
def runOps (ops : List Op) : RobotBackend × List TickEv :=
  runOpsFrom RobotBackend.start ops

/-- The identifiers handed back by the `schedule_feed` calls of a run, in
call order. -/
def returnedIdsFrom (b : RobotBackend) : List Op → List Nat
  | [] => []
  | Op.sched t p s :: rest =>
    (schedule_feed b t p s).2 :: returnedIdsFrom (schedule_feed b t p s).1 rest
  | Op.del i :: rest => returnedIdsFrom (delete_feed b i).1 rest
  | Op.tick now :: rest => returnedIdsFrom (check_schedule now b).1 rest

/-- The identifiers returned over a whole process lifetime. -/
def returnedIds (ops : List Op) : List Nat :=
  returnedIdsFrom RobotBackend.start ops

/-- The ids carried by `feed_triggered` emissions, in emission order. -/
def emittedIds (evs : List TickEv) : List Nat :=
  evs.filterMap (fun e => match e with | TickEv.emit i => some i | _ => none)

/-- The id projection of a task list, in list order. -/
def idsOf (l : List FeedTask) : List Nat := l.map (fun t => t.id)

/-- Strict (time, id) lexicographic order on tasks: the firing order the
scheduler realises (identifier order coincides with schedule-call order in
this model, see the module comment). -/
def lexLt (a b : FeedTask) : Prop :=
  a.time < b.time ∨ (a.time = b.time ∧ a.id < b.id)

/-- The non-strict tie relation behind `lexLt`: equal times force id order. -/
def tieLt (a b : FeedTask) : Prop := a.time = b.time → a.id < b.id

/-- A concrete snapshot used by counterexamples and witnesses. -/
def sampleSnap : Snapshot := ⟨1, [⟨0, 0, WellState.MANUAL⟩]⟩

/-- A concrete task (id 0, fire time 5, intensity 50) used by
counterexamples and witnesses. -/
def sampleTask : FeedTask := ⟨0, 5, 50, [sampleSnap]⟩

/-- A concrete backend holding `sampleTask`, as reached by scheduling it. -/
def sampleBackend : RobotBackend := ⟨[sampleTask], 1⟩

/-- Characterisation of the `check_schedule` loop: folding `tickStep` over
the copy of the store erases exactly the due tasks from the live list and
appends the firing events of the due tasks, in copy order. -/
theorem tickFold_eq (now : Nat) (cur : List FeedTask) :
    ∀ (acc : List FeedTask) (evs : List TickEv),
    cur.foldl (tickStep now) (acc, evs) =
      ((cur.filter (fun t => now ≥ t.time)).foldl (fun l t => l.erase t) acc,
       evs ++ (cur.filter (fun t => now ≥ t.time)).flatMap fireEvents) := by
  induction cur with
  | nil => intro acc evs; simp
  | cons t rest ih =>
    intro acc evs
    by_cases h : now ≥ t.time
    · simp [tickStep, h, ih, List.filter_cons]
    · simp [tickStep, h, ih, List.filter_cons]

/-- Erasing the elements of a duplicate-free sublist one by one is the same
as filtering them out. -/
theorem eraseFold_of_sublist :
    ∀ (s l : List FeedTask), l.Nodup → List.Sublist s l →
    s.foldl (fun acc t => acc.erase t) l = l.filter (fun t => t ∉ s) := by
  intro s
  induction s with
  | nil => intro l _ _; simp
  | cons a s' ih =>
    intro l hl hsub
    have hsub' : List.Sublist s' (l.erase a) := by
      have h := hsub.erase a
      rwa [List.erase_cons_head] at h
    have hstep : (a :: s').foldl (fun acc t => acc.erase t) l =
        s'.foldl (fun acc t => acc.erase t) (l.erase a) := rfl
    rw [hstep, ih (l.erase a) (hl.erase a) hsub',
        hl.erase_eq_filter a, List.filter_filter]
    apply List.filter_congr
    intro t _
    by_cases h1 : t = a <;> by_cases h2 : t ∈ s' <;> simp [h1, h2]

/-- The event trace of one tick: the firing events of the due tasks, in
store order. -/
theorem check_schedule_evs (now : Nat) (b : RobotBackend) :
    (check_schedule now b).2 =
      (b.scheduled_feeds.filter (fun t => now ≥ t.time)).flatMap fireEvents := by
  simp [check_schedule, tickFold_eq]

/-- The store after one tick, given duplicate-free ids: exactly the tasks
that were not yet due, in their previous relative order and unchanged. -/
theorem check_schedule_feeds (now : Nat) (b : RobotBackend)
    (h : (idsOf b.scheduled_feeds).Nodup) :
    (check_schedule now b).1.scheduled_feeds =
      b.scheduled_feeds.filter (fun t => ¬ now ≥ t.time) := by
  have hnd : b.scheduled_feeds.Nodup := h.of_map
  have hsub : List.Sublist (b.scheduled_feeds.filter (fun t => now ≥ t.time)) b.scheduled_feeds :=
    List.filter_sublist _
  simp only [check_schedule, tickFold_eq]
  rw [eraseFold_of_sublist _ _ hnd hsub]
  apply List.filter_congr
  intro t ht
  rw [decide_eq_decide]
  simp [List.mem_filter, ht]

/-- Emission count inside the firing events of a task list. -/
theorem count_emit_flatMap (i : Nat) :
    ∀ (L : List FeedTask),
    (L.flatMap fireEvents).count (TickEv.emit i) = (idsOf L).count i := by
  intro L
  induction L with
  | nil => simp [idsOf]
  | cons t rest ih =>
    simp [fireEvents, execute_robot, idsOf, List.count_cons, List.count_append,
      ih] at *

/-- A `fired` emission occurs among the firing events of a task list exactly
when the list contains a task with that id. -/
theorem mem_emit_flatMap (i : Nat) (L : List FeedTask) :
    TickEv.emit i ∈ L.flatMap fireEvents ↔ i ∈ idsOf L := by
  simp [fireEvents, execute_robot, idsOf, List.mem_flatMap, eq_comm]

/-- The emitted ids of the firing events of a task list are its ids, in
order. -/
theorem emittedIds_flatMap :
    ∀ (L : List FeedTask), emittedIds (L.flatMap fireEvents) = idsOf L := by
  intro L
  induction L with
  | nil => simp [emittedIds, idsOf]
  | cons t rest ih =>
    simp only [List.flatMap_cons, emittedIds, List.filterMap_append] at *
    simp [fireEvents, execute_robot, idsOf, ih] at *

/-- The sort key comparison is transitive. -/
theorem timeLe_trans : ∀ (a b c : FeedTask), timeLe a b → timeLe b c → timeLe a c := by
  intro a b c
  simp only [timeLe, decide_eq_true_eq]
  omega

/-- The sort key comparison is total. -/
theorem timeLe_total : ∀ (a b : FeedTask), timeLe a b || timeLe b a := by
  intro a b
  simp only [timeLe, Bool.or_eq_true, decide_eq_true_eq]
  omega

/-- Stability of the sort, phrased on time classes: the tasks of any fixed
fire time appear in `mergeSort timeLe l` exactly as they appear in `l`. -/
theorem filter_time_mergeSort (l : List FeedTask) (τ : Nat) :
    (l.mergeSort timeLe).filter (fun t => t.time = τ) =
      l.filter (fun t => t.time = τ) := by
  have hpw : (l.filter (fun t => t.time = τ)).Pairwise (fun a b => timeLe a b) := by
    apply List.pairwise_of_forall_mem_list
    intro a ha b hb
    have ha' := List.of_mem_filter ha
    have hb' := List.of_mem_filter hb
    simp only [decide_eq_true_eq] at ha' hb'
    simp only [timeLe, ha', hb', decide_eq_true_eq]
    omega
  have hsub : List.Sublist (l.filter (fun t => t.time = τ)) (l.mergeSort timeLe) :=
    List.sublist_mergeSort timeLe_trans timeLe_total hpw (List.filter_sublist l)
  have hsub2 : List.Sublist (l.filter (fun t => t.time = τ))
      ((l.mergeSort timeLe).filter (fun t => t.time = τ)) := by
    have h := hsub.filter (fun t => t.time = τ)
    rwa [List.filter_filter, List.filter_congr (q := fun t => t.time = τ)
      (by intro t _; simp)] at h
  have hperm : List.Perm ((l.mergeSort timeLe).filter (fun t => t.time = τ))
      (l.filter (fun t => t.time = τ)) :=
    (List.mergeSort_perm l timeLe).filter _
  exact (hsub2.eq_of_length hperm.length_eq.symm).symm

/-- A list sorted by time whose equal-time classes are each sorted by id is
sorted by the strict (time, id) lexicographic order. -/
theorem pairwise_lex_of_ties :
    ∀ (m : List FeedTask),
    m.Pairwise (fun a b => a.time ≤ b.time) →
    (∀ τ : Nat, (m.filter (fun t => t.time = τ)).Pairwise (fun a b => a.id < b.id)) →
    m.Pairwise lexLt := by
  intro m
  induction m with
  | nil => intro _ _; exact List.Pairwise.nil
  | cons a rest ih =>
    intro hs hf
    rw [List.pairwise_cons] at hs ⊢
    constructor
    · intro b hb
      rcases Nat.lt_or_ge a.time b.time with hlt | hge
      · exact Or.inl hlt
      have heq : a.time = b.time := Nat.le_antisymm (hs.1 b hb) hge
      refine Or.inr ⟨heq, ?_⟩
      have hfa := hf a.time
      rw [List.filter_cons] at hfa
      simp only [decide_True, if_true, decide_eq_true_eq] at hfa
      rw [List.pairwise_cons] at hfa
      exact hfa.1 b (List.mem_filter.mpr ⟨hb, by simp [heq]⟩)
    · apply ih hs.2
      intro τ
      have hfτ := hf τ
      rw [List.filter_cons] at hfτ
      by_cases hτ : a.time = τ
      · rw [if_pos (by simp [hτ])] at hfτ
        exact (List.pairwise_cons.mp hfτ).2
      · rwa [if_neg (by simp [hτ])] at hfτ

/-- Key invariant-preservation fact for `schedule_feed`: appending a task
with a fresh maximal id to a lex-sorted store and stable-sorting by time
yields a lex-sorted store. -/
theorem pairwise_lex_mergeSort_append {l : List FeedTask} {x : FeedTask}
    (hl : l.Pairwise lexLt) (hfresh : ∀ t ∈ l, t.id < x.id) :
    ((l ++ [x]).mergeSort timeLe).Pairwise lexLt := by
  have hQ : (l ++ [x]).Pairwise tieLt := by
    rw [List.pairwise_append]
    refine ⟨hl.imp ?_, List.pairwise_singleton _ _, ?_⟩
    · intro a b hab heq
      rcases hab with h | ⟨_, hid⟩
      · omega
      · exact hid
    · intro a ha b hb
      simp only [List.mem_singleton] at hb
      subst hb
      intro _
      exact hfresh a ha
  have hsortedT : ((l ++ [x]).mergeSort timeLe).Pairwise (fun a b => a.time ≤ b.time) := by
    have h := List.sorted_mergeSort timeLe_trans timeLe_total (l ++ [x])
    exact h.imp (by intro a b hab; simpa [timeLe] using hab)
  apply pairwise_lex_of_ties _ hsortedT
  intro τ
  rw [filter_time_mergeSort]
  have h1 : ((l ++ [x]).filter (fun t => t.time = τ)).Pairwise tieLt := hQ.filter _
  apply h1.imp_of_mem
  intro a b ha hb hab
  have ha' := List.of_mem_filter ha
  have hb' := List.of_mem_filter hb
  simp only [decide_eq_true_eq] at ha' hb'
  exact hab (by omega)

/-- Reachability invariant of the backend together with the events emitted
so far: ids in the store are duplicate-free and below the fresh-id counter,
the store is (time, id)-lex sorted, every id is emitted at most once, and an
emitted id is below the counter and no longer in the store. -/
structure ReachInv (b : RobotBackend) (evs : List TickEv) : Prop where
  nodupIds : (idsOf b.scheduled_feeds).Nodup
  idBound : ∀ t ∈ b.scheduled_feeds, t.id < b.nextId
  sortedStore : b.scheduled_feeds.Pairwise lexLt
  emitOnce : ∀ i, evs.count (TickEv.emit i) ≤ 1
  emitGone : ∀ i, TickEv.emit i ∈ evs → i < b.nextId ∧ i ∉ idsOf b.scheduled_feeds

/-- The freshly constructed backend satisfies the invariant with no events. -/
theorem inv_start : ReachInv RobotBackend.start [] := by
  constructor <;> simp [RobotBackend.start, idsOf]

/-- The id projection of the post-schedule store is a permutation of the
old ids with the fresh id appended. -/
theorem idsOf_schedule (b : RobotBackend) (time : Nat) (pct : Int)
    (snap : List Snapshot) :
    List.Perm (idsOf (schedule_feed b time pct snap).1.scheduled_feeds)
      (idsOf b.scheduled_feeds ++ [b.nextId]) := by
  have hp := List.mergeSort_perm
    (b.scheduled_feeds ++ [(⟨b.nextId, time, pct, snap⟩ : FeedTask)]) timeLe
  have := hp.map (fun t : FeedTask => t.id)
  simpa [schedule_feed, idsOf] using this

/-- `schedule_feed` preserves the invariant (no events are emitted). -/
theorem inv_schedule {b : RobotBackend} {evs : List TickEv}
    (h : ReachInv b evs) (time : Nat) (pct : Int) (snap : List Snapshot) :
    ReachInv (schedule_feed b time pct snap).1 evs := by
  have hperm := idsOf_schedule b time pct snap
  have hfresh : b.nextId ∉ idsOf b.scheduled_feeds := by
    simp only [idsOf, List.mem_map, not_exists]
    rintro t ⟨ht, hid⟩
    have := h.idBound t ht
    omega
  constructor
  · apply hperm.nodup_iff.mpr
    rw [List.nodup_append]
    refine ⟨h.nodupIds, List.nodup_singleton _, ?_⟩
    intro i hi hj
    simp only [List.mem_singleton] at hj
    subst hj
    exact hfresh hi
  · intro t ht
    simp only [schedule_feed, List.mem_mergeSort, List.mem_append,
      List.mem_singleton] at ht
    rcases ht with ht | ht
    · have := h.idBound t ht
      simp only [schedule_feed]
      omega
    · subst ht
      simp [schedule_feed]
  · simp only [schedule_feed]
    exact pairwise_lex_mergeSort_append h.sortedStore
      (fun t ht => h.idBound t ht)
  · exact h.emitOnce
  · intro i hi
    obtain ⟨hlt, hnot⟩ := h.emitGone i hi
    constructor
    · simp only [schedule_feed]
      omega
    · intro hmem
      have := hperm.mem_iff.mp hmem
      simp only [List.mem_append, List.mem_singleton] at this
      rcases this with hmem' | hmem'
      · exact hnot hmem'
      · omega

/-- `delete_feed` preserves the invariant (no events are emitted). -/
theorem inv_delete {b : RobotBackend} {evs : List TickEv}
    (h : ReachInv b evs) (i : Nat) :
    ReachInv (delete_feed b i).1 evs := by
  have hsub : List.Sublist (idsOf (delete_feed b i).1.scheduled_feeds)
      (idsOf b.scheduled_feeds) := by
    simp only [delete_feed, idsOf]
    exact (List.filter_sublist _).map _
  constructor
  · exact h.nodupIds.sublist hsub
  · intro t ht
    simp only [delete_feed, List.mem_filter] at ht
    exact h.idBound t ht.1
  · simp only [delete_feed]
    exact h.sortedStore.filter _
  · exact h.emitOnce
  · intro j hj
    obtain ⟨hlt, hnot⟩ := h.emitGone j hj
    exact ⟨hlt, fun hmem => hnot (hsub.subset hmem)⟩

/-- `check_schedule` preserves the invariant, with the tick's events
appended to the history. -/
theorem inv_tick {b : RobotBackend} {evs : List TickEv}
    (h : ReachInv b evs) (now : Nat) :
    ReachInv (check_schedule now b).1 (evs ++ (check_schedule now b).2) := by
  have hndTasks : b.scheduled_feeds.Nodup := h.nodupIds.of_map
  have hfeeds := check_schedule_feeds now b h.nodupIds
  have hevs := check_schedule_evs now b
  have hdueSub : List.Sublist
      (idsOf (b.scheduled_feeds.filter (fun t => now ≥ t.time)))
      (idsOf b.scheduled_feeds) := (List.filter_sublist _).map _
  have hremSub : List.Sublist
      (idsOf (b.scheduled_feeds.filter (fun t => ¬ now ≥ t.time)))
      (idsOf b.scheduled_feeds) := (List.filter_sublist _).map _
  have hinj := List.inj_on_of_nodup_map (f := fun t : FeedTask => t.id) h.nodupIds
  have hsplit : ∀ i, i ∈ idsOf (b.scheduled_feeds.filter (fun t => now ≥ t.time)) →
      i ∉ idsOf (b.scheduled_feeds.filter (fun t => ¬ now ≥ t.time)) := by
    intro i hdue hrem
    simp only [idsOf, List.mem_map, List.mem_filter, decide_not,
      decide_eq_true_eq, Bool.not_eq_true', decide_eq_false_iff_not] at hdue hrem
    obtain ⟨t, ⟨htmem, htdue⟩, hti⟩ := hdue
    obtain ⟨u, ⟨humem, hurem⟩, hui⟩ := hrem
    have : t = u := hinj htmem humem (by rw [hti, hui])
    subst this
    exact hurem htdue
  constructor
  · rw [hfeeds]
    exact h.nodupIds.sublist hremSub
  · intro t ht
    rw [hfeeds] at ht
    simp only [List.mem_filter] at ht
    have := h.idBound t ht.1
    simpa [check_schedule] using this
  · rw [hfeeds]
    exact h.sortedStore.filter _
  · intro i
    rw [List.count_append, hevs, count_emit_flatMap]
    by_cases hmem : i ∈ idsOf (b.scheduled_feeds.filter (fun t => now ≥ t.time))
    · have hcnt : (idsOf (b.scheduled_feeds.filter (fun t => now ≥ t.time))).count i ≤ 1 :=
        List.nodup_iff_count_le_one.mp (h.nodupIds.sublist hdueSub) i
      have hzero : evs.count (TickEv.emit i) = 0 := by
        rw [List.count_eq_zero]
        intro habs
        exact (h.emitGone i habs).2 (hdueSub.subset hmem)
      omega
    · have hcnt : (idsOf (b.scheduled_feeds.filter (fun t => now ≥ t.time))).count i = 0 :=
        List.count_eq_zero.mpr hmem
      have := h.emitOnce i
      omega
  · intro i hi
    rw [List.mem_append, hevs, mem_emit_flatMap] at hi
    rw [hfeeds]
    rcases hi with hi | hi
    · obtain ⟨hlt, hnot⟩ := h.emitGone i hi
      refine ⟨by simpa [check_schedule] using hlt, ?_⟩
      intro hmem
      exact hnot (hremSub.subset hmem)
    · refine ⟨?_, hsplit i hi⟩
      have := hdueSub.subset hi
      simp only [idsOf, List.mem_map] at this
      obtain ⟨t, ht, hid⟩ := this
      have := h.idBound t ht
      simp only [check_schedule]
      omega

/-- Any single stimulus preserves the invariant. -/
theorem inv_applyOp {b : RobotBackend} {evs : List TickEv}
    (h : ReachInv b evs) (op : Op) :
    ReachInv (applyOp b op).1 (evs ++ (applyOp b op).2) := by
  cases op with
  | sched t p s => simpa [applyOp] using inv_schedule h t p s
  | del i => simpa [applyOp] using inv_delete h i
  | tick now => exact inv_tick h now

/-- Running any list of stimuli preserves the invariant, accumulating the
emitted events. -/
theorem inv_runOpsFrom {b : RobotBackend} {evs : List TickEv}
    (h : ReachInv b evs) (ops : List Op) :
    ReachInv (runOpsFrom b ops).1 (evs ++ (runOpsFrom b ops).2) := by
  induction ops generalizing b evs with
  | nil => simpa [runOpsFrom] using h
  | cons op rest ih =>
    have h1 := inv_applyOp h op
    have h2 := ih h1
    simpa [runOpsFrom, List.append_assoc] using h2

/-- Every state reached by a run satisfies the invariant. -/
theorem inv_runOps (ops : List Op) : ReachInv (runOps ops).1 (runOps ops).2 := by
  have := inv_runOpsFrom inv_start ops
  simpa [runOps] using this

/-- C9: `WellState` is a closed three-variant type whose successor function
is total and cyclic: `next DISABLED = MANUAL`, `next MANUAL = CALCULATED`,
`next CALCULATED = DISABLED`, hence `next` applied three times to any state
returns that state (and the three listed variants exhaust the type). -/
theorem C9_wellstate_cyclic :
    WellState.next .DISABLED = .MANUAL ∧
    WellState.next .MANUAL = .CALCULATED ∧
    WellState.next .CALCULATED = .DISABLED ∧
    (∀ s : WellState, s.next.next.next = s) ∧
    (∀ s : WellState, s = .DISABLED ∨ s = .MANUAL ∨ s = .CALCULATED) := by
  refine ⟨by decide, by decide, by decide, ?_, ?_⟩ <;> (intro s; cases s <;> decide)

/-- C1: for every task ever scheduled, at most one `feed_triggered` emission
carrying its id occurs across the whole run: once fired and removed, a task
is never fired again. -/
theorem C1_at_most_once_fired (ops : List Op) (i : Nat) :
    (runOps ops).2.count (TickEv.emit i) ≤ 1 :=
  (inv_runOps ops).emitOnce i

/-- C2: within a single tick all due tasks are fired — the emitted ids are
exactly the ids of the due tasks, in store order — and the due list is
sorted by fire time with ties in id order; ids are assigned in
schedule-call order in this model, so ties follow the order the schedule
calls were made. -/
theorem C2_tick_ordering (ops : List Op) (now : Nat) :
    emittedIds (check_schedule now (runOps ops).1).2 =
      idsOf ((runOps ops).1.scheduled_feeds.filter (fun t => now ≥ t.time)) ∧
    ((runOps ops).1.scheduled_feeds.filter (fun t => now ≥ t.time)).Pairwise lexLt ∧
    ∀ t ∈ (runOps ops).1.scheduled_feeds.filter (fun t => now ≥ t.time),
      execute_robot t ∈ (check_schedule now (runOps ops).1).2 := by
  refine ⟨?_, ?_, ?_⟩
  · rw [check_schedule_evs, emittedIds_flatMap]
  · exact (inv_runOps ops).sortedStore.filter _
  · intro t ht
    rw [check_schedule_evs]
    exact List.mem_flatMap.mpr ⟨t, ht, by simp [fireEvents]⟩

/-- C4 counterexample: a schedule request with intensity 150 (outside
[0,100]) succeeds and its task enters the store, and a schedule request
with an empty snapshot collection succeeds and its task enters the store —
no `ValidationError` exists in the code. -/
theorem C4_counterexample :
    (schedule_feed RobotBackend.start 5 150 [sampleSnap]).1.scheduled_feeds =
      [⟨0, 5, 150, [sampleSnap]⟩] ∧
    (schedule_feed RobotBackend.start 5 50 []).1.scheduled_feeds =
      [⟨0, 5, 50, []⟩] := by
  constructor <;> simp [schedule_feed, RobotBackend.start]

/-- C4 amended: `schedule_feed` performs no validation at all — every
request, with any intensity (including values outside [0,100]) and any
snapshot collection (including the empty one), succeeds, and the new task
always enters the store. -/
theorem C4_amended_no_validation (b : RobotBackend) (time : Nat) (pct : Int)
    (snap : List Snapshot) :
    (⟨b.nextId, time, pct, snap⟩ : FeedTask) ∈
      (schedule_feed b time pct snap).1.scheduled_feeds ∧
    (schedule_feed b time pct snap).1.scheduled_feeds.length =
      b.scheduled_feeds.length + 1 := by
  constructor
  · simp [schedule_feed]
  · simp [schedule_feed]

/-- C5 counterexample: deleting a present task does remove it, but the
call returns `None` (the Python function has no return statement), not the
boolean `true` the claim requires. -/
theorem C5_counterexample :
    (delete_feed sampleBackend 0).1.scheduled_feeds = [] ∧
    (delete_feed sampleBackend 0).2 ≠ some true := by
  constructor <;> decide

/-- C5 amended: `delete_feed` removes exactly the stored tasks whose id
matches, is total (never raises, also for a not-found id), but always
returns `None` rather than a boolean — callers cannot tell removal from
not-found by the return value. -/
theorem C5_amended_delete_semantics (b : RobotBackend) (i : Nat) :
    (delete_feed b i).1.scheduled_feeds =
      b.scheduled_feeds.filter (fun f => f.id ≠ i) ∧
    (delete_feed b i).2 = none :=
  ⟨rfl, rfl⟩

/-- C7 counterexample: for a backend holding one due task, the tick trace
is execute, then remove, then emit — the task is executed strictly before
its removal from the store, contradicting remove-before-execute. -/
theorem C7_counterexample :
    (check_schedule 10 sampleBackend).2 =
      [TickEv.exec sampleTask, TickEv.removed 0, TickEv.emit 0] ∧
    (check_schedule 10 sampleBackend).2.indexOf (TickEv.exec sampleTask) <
      (check_schedule 10 sampleBackend).2.indexOf (TickEv.removed 0) := by
  constructor <;> decide

/-- C7 amended: within a tick each due task is executed first, then removed
from the store, then its `fired` notification is emitted; the loop walks a
copy of the store sequentially, so the removal always succeeds and no
skip-on-failed-removal path exists. -/
theorem C7_amended_exec_before_removal (b : RobotBackend) (now : Nat) :
    (check_schedule now b).2 =
      (b.scheduled_feeds.filter (fun t => now ≥ t.time)).flatMap
        (fun t => [execute_robot t, TickEv.removed t.id, TickEv.emit t.id]) := by
  rw [check_schedule_evs]
  rfl

/-- The fresh-id counter never decreases under any stimulus. -/
theorem nextId_mono (b : RobotBackend) (op : Op) :
    b.nextId ≤ (applyOp b op).1.nextId := by
  cases op <;> simp [applyOp, schedule_feed, delete_feed, check_schedule]

/-- The ids returned by the schedule calls of a run are bounded below by
the starting counter and strictly increasing in call order. -/
theorem returnedIdsFrom_mono (ops : List Op) :
    ∀ (b : RobotBackend),
    (∀ i ∈ returnedIdsFrom b ops, b.nextId ≤ i) ∧
    (returnedIdsFrom b ops).Pairwise (fun i j => i < j) := by
  induction ops with
  | nil => intro b; constructor <;> simp [returnedIdsFrom]
  | cons op rest ih =>
    intro b
    cases op with
    | sched t p s =>
      have hb := ih (schedule_feed b t p s).1
      have hnext : (schedule_feed b t p s).1.nextId = b.nextId + 1 := rfl
      have hret : (schedule_feed b t p s).2 = b.nextId := rfl
      constructor
      · intro i hi
        simp only [returnedIdsFrom, List.mem_cons] at hi
        rcases hi with hi | hi
        · rw [hret] at hi; omega
        · have h2 := hb.1 i hi
          rw [hnext] at h2
          omega
      · simp only [returnedIdsFrom]
        rw [List.pairwise_cons]
        constructor
        · intro j hj
          have h2 := hb.1 j hj
          rw [hnext] at h2
          rw [hret]
          omega
        · exact hb.2
    | del i =>
      have hb := ih (delete_feed b i).1
      have hnext : (delete_feed b i).1.nextId = b.nextId := rfl
      simp only [returnedIdsFrom]
      refine ⟨fun j hj => ?_, hb.2⟩
      have h2 := hb.1 j hj
      rw [hnext] at h2
      exact h2
    | tick now =>
      have hb := ih (check_schedule now b).1
      have hnext : (check_schedule now b).1.nextId = b.nextId := rfl
      simp only [returnedIdsFrom]
      refine ⟨fun j hj => ?_, hb.2⟩
      have h2 := hb.1 j hj
      rw [hnext] at h2
      exact h2

/-- C6: for every sequence of schedule calls within one process lifetime
(interleaved with deletes and ticks), the identifiers returned are
pairwise distinct — uuid4 is modelled as a fresh-identifier generator. -/
theorem C6_ids_pairwise_distinct (ops : List Op) : (returnedIds ops).Nodup := by
  have h := (returnedIdsFrom_mono ops RobotBackend.start).2
  exact h.imp Nat.ne_of_lt

/-- Mutating wells of the live grid through `set_state` never touches the
backend nor any task stored inside it. -/
theorem applyMuts_backend (muts : List (Nat × Nat × WellState)) :
    ∀ (sys : UISystem), (applyMuts muts sys).backend = sys.backend := by
  induction muts with
  | nil => intro sys; rfl
  | cons m rest ih =>
    intro sys
    have hstep : applyMuts (m :: rest) sys =
        applyMuts rest (sysSetState sys m.1 m.2.1 m.2.2) := rfl
    rw [hstep, ih]
    rfl

/-- C3: for every task created by a schedule call, applying any sequence of
`set_state` mutations to the live plates afterwards leaves the snapshot
data stored inside the already-created task equal to the plate states as
they were at snapshot-capture time. -/
theorem C3_snapshot_immutable (sys : UISystem) (time : Nat) (pct : Int)
    (muts : List (Nat × Nat × WellState)) :
    ∃ t ∈ (applyMuts muts (add_schedule sys time pct).1).backend.scheduled_feeds,
      t.id = (add_schedule sys time pct).2 ∧
      t.snapshot = sys.plates.map get_snapshot_data := by
  rw [applyMuts_backend]
  refine ⟨⟨sys.backend.nextId, time, pct, sys.plates.map get_snapshot_data⟩, ?_, rfl, rfl⟩
  simp [add_schedule, schedule_feed]

/-- C10: a tick never touches a task that is not yet due — the post-tick
store is exactly the not-yet-due tasks with fields unchanged in their
previous relative order, and no `fired` notification is emitted for any
task whose fire time is strictly later than the tick's clock. -/
theorem C10_tick_frame (ops : List Op) (now : Nat) :
    (check_schedule now (runOps ops).1).1.scheduled_feeds =
      (runOps ops).1.scheduled_feeds.filter (fun t => ¬ now ≥ t.time) ∧
    ∀ t ∈ (runOps ops).1.scheduled_feeds, now < t.time →
      t ∈ (check_schedule now (runOps ops).1).1.scheduled_feeds ∧
      TickEv.emit t.id ∉ (check_schedule now (runOps ops).1).2 := by
  have hInv := inv_runOps ops
  have hfeeds := check_schedule_feeds now (runOps ops).1 hInv.nodupIds
  refine ⟨hfeeds, ?_⟩
  intro t ht hlt
  constructor
  · rw [hfeeds, List.mem_filter]
    refine ⟨ht, ?_⟩
    simp only [decide_not, Bool.not_eq_true', decide_eq_false_iff_not]
    omega
  · rw [check_schedule_evs, mem_emit_flatMap]
    intro habs
    simp only [idsOf, List.mem_map, List.mem_filter, decide_eq_true_eq] at habs
    obtain ⟨u, ⟨humem, hudue⟩, hui⟩ := habs
    have hut : u = t := List.inj_on_of_nodup_map hInv.nodupIds humem ht hui
    subst hut
    omega

/-- C10 witness: schedule a task for time 5, tick at time 3 — the task
stays in the store and no notification for it is emitted. -/
theorem C10_witness :
    sampleTask ∈ (runOps [Op.sched 5 50 [sampleSnap]]).1.scheduled_feeds ∧
    3 < sampleTask.time ∧
    (sampleTask ∈ (check_schedule 3 (runOps [Op.sched 5 50 [sampleSnap]]).1).1.scheduled_feeds ∧
      TickEv.emit sampleTask.id ∉ (check_schedule 3 (runOps [Op.sched 5 50 [sampleSnap]]).1).2) := by
  have hmem : sampleTask ∈ (runOps [Op.sched 5 50 [sampleSnap]]).1.scheduled_feeds := by
    simp [runOps, runOpsFrom, applyOp, schedule_feed, RobotBackend.start, sampleTask]
  exact ⟨hmem, by decide,
    (C10_tick_frame [Op.sched 5 50 [sampleSnap]] 3).2 sampleTask hmem (by decide)⟩

/-- C8: a schedule request whose fire time is already in the past is
accepted (its task enters the store), the first tick that runs afterwards
fires it with exactly one `fired` notification, removes it from the store,
and no later tick ever emits a notification for it again. -/
theorem C8_past_time_accepted_fires_once (ops : List Op) (time : Nat) (pct : Int)
    (snap : List Snapshot) (now : Nat) (hpast : time ≤ now) :
    (schedule_feed (runOps ops).1 time pct snap).2 ∈
      idsOf (schedule_feed (runOps ops).1 time pct snap).1.scheduled_feeds ∧
    (check_schedule now (schedule_feed (runOps ops).1 time pct snap).1).2.count
      (TickEv.emit (schedule_feed (runOps ops).1 time pct snap).2) = 1 ∧
    (schedule_feed (runOps ops).1 time pct snap).2 ∉
      idsOf (check_schedule now (schedule_feed (runOps ops).1 time pct snap).1).1.scheduled_feeds ∧
    ∀ later : Nat,
      (check_schedule later
        (check_schedule now (schedule_feed (runOps ops).1 time pct snap).1).1).2.count
        (TickEv.emit (schedule_feed (runOps ops).1 time pct snap).2) = 0 := by
  have hInv : ReachInv (runOps ops).1 (runOps ops).2 := inv_runOps ops
  have hInv' := inv_schedule hInv time pct snap
  have htid : (schedule_feed (runOps ops).1 time pct snap).2 = (runOps ops).1.nextId := rfl
  have hxmem : (⟨(runOps ops).1.nextId, time, pct, snap⟩ : FeedTask) ∈
      (schedule_feed (runOps ops).1 time pct snap).1.scheduled_feeds := by
    simp [schedule_feed]
  have hxdue : (⟨(runOps ops).1.nextId, time, pct, snap⟩ : FeedTask) ∈
      (schedule_feed (runOps ops).1 time pct snap).1.scheduled_feeds.filter
        (fun t => now ≥ t.time) := by
    rw [List.mem_filter]
    refine ⟨hxmem, ?_⟩
    simp only [decide_eq_true_eq]
    omega
  have hidmem : (runOps ops).1.nextId ∈
      idsOf ((schedule_feed (runOps ops).1 time pct snap).1.scheduled_feeds.filter
        (fun t => now ≥ t.time)) :=
    List.mem_map.mpr ⟨_, hxdue, rfl⟩
  have hdueSub : List.Sublist
      (idsOf ((schedule_feed (runOps ops).1 time pct snap).1.scheduled_feeds.filter
        (fun t => now ≥ t.time)))
      (idsOf (schedule_feed (runOps ops).1 time pct snap).1.scheduled_feeds) :=
    (List.filter_sublist _).map _
  have hnotin : (runOps ops).1.nextId ∉
      idsOf (check_schedule now (schedule_feed (runOps ops).1 time pct snap).1).1.scheduled_feeds := by
    rw [check_schedule_feeds _ _ hInv'.nodupIds]
    intro hmem
    simp only [idsOf, List.mem_map, List.mem_filter, decide_not,
      Bool.not_eq_true', decide_eq_false_iff_not] at hmem
    obtain ⟨u, ⟨humem, hurem⟩, hui⟩ := hmem
    have hxu : (⟨(runOps ops).1.nextId, time, pct, snap⟩ : FeedTask) = u :=
      List.inj_on_of_nodup_map hInv'.nodupIds hxmem humem (by rw [hui])
    rw [← hxu] at hurem
    simp only at hurem
    omega
  refine ⟨?_, ?_, ?_, ?_⟩
  · rw [htid]
    exact List.mem_map.mpr ⟨_, hxmem, rfl⟩
  · rw [htid, check_schedule_evs, count_emit_flatMap]
    have h1 := List.nodup_iff_count_le_one.mp (hInv'.nodupIds.sublist hdueSub)
      (runOps ops).1.nextId
    have h2 : (idsOf ((schedule_feed (runOps ops).1 time pct snap).1.scheduled_feeds.filter
        (fun t => now ≥ t.time))).count (runOps ops).1.nextId ≠ 0 :=
      fun h0 => (List.count_eq_zero.mp h0) hidmem
    omega
  · rw [htid]
    exact hnotin
  · intro later
    rw [htid, check_schedule_evs, count_emit_flatMap, List.count_eq_zero]
    intro habs
    have : (runOps ops).1.nextId ∈
        idsOf (check_schedule now (schedule_feed (runOps ops).1 time pct snap).1).1.scheduled_feeds :=
      ((List.filter_sublist _).map _).subset habs
    exact hnotin this

/-- C8 witness: with an empty history, schedule a task for time 0 and tick
at time 3 — the task was accepted, fired exactly once, removed, and no
later tick emits for it. -/
theorem C8_witness :
    (0 ≤ 3) ∧
    ((schedule_feed (runOps []).1 0 50 [sampleSnap]).2 ∈
        idsOf (schedule_feed (runOps []).1 0 50 [sampleSnap]).1.scheduled_feeds ∧
      (check_schedule 3 (schedule_feed (runOps []).1 0 50 [sampleSnap]).1).2.count
        (TickEv.emit (schedule_feed (runOps []).1 0 50 [sampleSnap]).2) = 1 ∧
      (schedule_feed (runOps []).1 0 50 [sampleSnap]).2 ∉
        idsOf (check_schedule 3 (schedule_feed (runOps []).1 0 50 [sampleSnap]).1).1.scheduled_feeds ∧
      ∀ later : Nat,
        (check_schedule later
          (check_schedule 3 (schedule_feed (runOps []).1 0 50 [sampleSnap]).1).1).2.count
          (TickEv.emit (schedule_feed (runOps []).1 0 50 [sampleSnap]).2) = 0) :=
  ⟨by decide, C8_past_time_accepted_fires_once [] 0 50 [sampleSnap] 3 (by decide)⟩
